import Mathlib

/-!
Verification of the rl_education repository against its specification.

The file embeds, as Lean definitions, the parts of the repository that the
checked properties are about:

* `src/Gridworld/Generator/gridworld.py` — the `Gridworld` constructor and its
  slip-model handling (rationals stand for Python floats, whose arithmetic is
  exact on the small literals involved);
* the value-iteration solver described by the specification (the solver module
  itself is not among the repository's source files, so it is modelled from the
  specification's words, see `GW.sweepQ` / `GW.solveAux`);
* `src/k_armed_bandit/k_armed_bandit.py` and `src/k_armed_bandit/strategy.py` —
  the `Action` arm model, the `EpsilonGreedy` / `UCB` / `Gradient` strategies and
  the `simulate` driver.  Randomness (`np.random.randn`, `np.random.rand`,
  `np.random.choice`) is modelled by an explicit oracle of value streams with
  per-stream counters threaded through every call, so each embedded run
  corresponds to one possible execution of the Python program.
-/

namespace GW

/-- A slip dictionary: probability of actually moving forward / left / right /
backward relative to the intended direction (fields mirror the Python dict
keys). -/
structure Slip where
  left : ℚ
  right : ℚ
  backward : ℚ
  forward : ℚ
deriving DecidableEq

/-- The default slip model built by `Gridworld.__init__` when no `slip`
argument is supplied: deterministic forward motion. -/
def defaultSlip : Slip := { left := 0, right := 0, backward := 0, forward := 1 }

/-- A constructed `Gridworld` object: the fields stored by
`Gridworld.__init__` (the rendering-only machinery is out of scope). -/
structure Gridworld where
  h : ℕ
  w : ℕ
  stateTypes : ℕ → ℕ → ℕ
  rewards : ℕ → ℕ → ℚ
  qTable : ℕ → ℕ → ℕ → ℚ
  slip : Slip
  gamma : ℚ
  stepReward : ℚ

/-- Embedding of `Gridworld.__init__` (src/Gridworld/Generator/gridworld.py,
lines 5-27): store the grids; start from the default slip dict; when a `slip`
argument is given, keep that dict and overwrite its `'forward'` entry with
`1 - left - right - backward`; when no `q_table` is given, use all zeros. -/
def Gridworld.init (h w : ℕ) (stateTypes : ℕ → ℕ → ℕ) (rewards : ℕ → ℕ → ℚ)
    (qTable : Option (ℕ → ℕ → ℕ → ℚ)) (slip : Option Slip)
    (gamma stepReward : ℚ) : Gridworld :=
  let s : Slip :=
    match slip with
    | none => defaultSlip
    | some sl => { sl with forward := 1 - sl.left - sl.right - sl.backward }
  let q : ℕ → ℕ → ℕ → ℚ :=
    match qTable with
    | none => fun _ _ _ => 0
    | some qt => qt
  { h := h, w := w, stateTypes := stateTypes, rewards := rewards,
    qTable := q, slip := s, gamma := gamma, stepReward := stepReward }

/-- Heap-level embedding of the slip handling of `Gridworld.__init__`: slip
dictionaries live in a store indexed by addresses; the constructor receives the
ADDRESS of the caller's dict, keeps that same address in `self.slip`
(`self.slip = slip`) and writes the derived forward probability through it
(`self.slip['forward'] = forward_prob`), i.e. into the caller's dictionary. -/
def Gridworld.initSlipEffect (store : ℕ → Slip) (slipRef : ℕ) : (ℕ → Slip) × ℕ :=
  let sl := store slipRef
  let fwd := 1 - sl.left - sl.right - sl.backward
  (fun a => if a = slipRef then { sl with forward := fwd } else store a, slipRef)

/-- Modelled from the spec: the value-iteration solver module is not among the
repository's source files (only the `Gridworld` data holder is), so the
TransitionModel of spec section 4.1 is modelled from the specification's words.
Cell reached from `(i, j)` by moving one step in absolute direction
`d` (0 = up, 1 = right, 2 = down, 3 = left), clamped to the grid bounds
(movement off-grid is a no-op against the boundary). -/
def moveCell (h w : ℕ) (i j d : ℕ) : ℕ × ℕ :=
  match d with
  | 0 => (i - 1, j)
  | 1 => (i, if j + 1 < w then j + 1 else j)
  | 2 => (if i + 1 < h then i + 1 else i, j)
  | _ => (i, j - 1)

/-- Modelled from the spec: if the clamped next cell is of type "blocked" (2),
the agent instead stays at the current cell (the move is nullified). -/
def nextCell (g : Gridworld) (i j d : ℕ) : ℕ × ℕ :=
  let c := moveCell g.h g.w i j d
  if g.stateTypes c.1 c.2 = 2 then (i, j) else c

/-- Modelled from the spec: reward on entering a cell — the stored reward at a
terminal cell (type 1), the fixed step penalty everywhere else. -/
def cellReward (g : Gridworld) (i j : ℕ) : ℚ :=
  if g.stateTypes i j = 1 then g.rewards i j else g.stepReward

/-- Modelled from the spec: probability of the slip outcome with relative
label `lbl` (0 = forward, 1 = right, 2 = backward, 3 = left, the 4-cycle of
spec section 4.1). -/
def slipProb (s : Slip) (lbl : ℕ) : ℚ :=
  match lbl with
  | 0 => s.forward
  | 1 => s.right
  | 2 => s.backward
  | _ => s.left

/-- Modelled from the spec: `max_{a'} Q(s', a')`, the best action value at a
cell (4 actions). -/
def maxQ (q : ℕ → ℕ → ℕ → ℚ) (i j : ℕ) : ℚ :=
  max (max (q i j 0) (q i j 1)) (max (q i j 2) (q i j 3))

/-- Modelled from the spec: value of one slip outcome of intended action `a`
at cell `(i, j)`: actual direction `(a + lbl) mod 4`, then
`reward(s') + gamma * max_{a'} Q(s', a')`. -/
def outcomeVal (g : Gridworld) (q : ℕ → ℕ → ℕ → ℚ) (i j a lbl : ℕ) : ℚ :=
  let c := nextCell g i j ((a + lbl) % 4)
  cellReward g c.1 c.2 + g.gamma * maxQ q c.1 c.2

/-- Modelled from the spec: the backup target
`Q(s,a) = sum over slip outcomes of prob * (reward + gamma * max Q)`. -/
def targetQ (g : Gridworld) (q : ℕ → ℕ → ℕ → ℚ) (i j a : ℕ) : ℚ :=
  slipProb g.slip 0 * outcomeVal g q i j a 0
    + slipProb g.slip 1 * outcomeVal g q i j a 1
    + slipProb g.slip 2 * outcomeVal g q i j a 2
    + slipProb g.slip 3 * outcomeVal g q i j a 3

/-- All (row, column, action) indices of the Q-table, in sweep order. -/
def allIdx (g : Gridworld) : List (ℕ × ℕ × ℕ) :=
  (List.range g.h).flatMap fun i =>
    (List.range g.w).flatMap fun j =>
      (List.range 4).map fun a => (i, j, a)

/-- Pointwise write of one Q-entry (the in-place array assignment). -/
def writeQ (q : ℕ → ℕ → ℕ → ℚ) (i j a : ℕ) (v : ℚ) : ℕ → ℕ → ℕ → ℚ :=
  fun i' j' a' => if i' = i ∧ j' = j ∧ a' = a then v else q i' j' a'

/-- Modelled from the spec: one Gauss-Seidel cell-action update — free cells
(type 0) get the backup target computed from the CURRENT table, terminal and
blocked cells are never updated. -/
def sweepStep (g : Gridworld) (q : ℕ → ℕ → ℕ → ℚ) (e : ℕ × ℕ × ℕ) :
    ℕ → ℕ → ℕ → ℚ :=
  if g.stateTypes e.1 e.2.1 = 0 then
    writeQ q e.1 e.2.1 e.2.2 (targetQ g q e.1 e.2.1 e.2.2)
  else q

/-- Modelled from the spec: one full synchronous sweep over all states and
actions, Gauss-Seidel style (updates within a sweep see partially updated
neighbours). -/
def sweepQ (g : Gridworld) (q : ℕ → ℕ → ℕ → ℚ) : ℕ → ℕ → ℕ → ℚ :=
  (allIdx g).foldl (sweepStep g) q

/-- Maximum absolute change between two tables over all grid entries (0 for an
empty grid). -/
def maxAbsDiff (g : Gridworld) (q q' : ℕ → ℕ → ℕ → ℚ) : ℚ :=
  ((allIdx g).map fun e => |q' e.1 e.2.1 e.2.2 - q e.1 e.2.1 e.2.2|).foldr max 0

/-- Modelled from the spec: `solve(theta)` — repeat sweeps until the maximum
absolute change across a full sweep is below theta; `fuel` bounds the
iteration count (the spec notes the loop may otherwise run forever). -/
def solveAux (g : Gridworld) (theta : ℚ) : ℕ → (ℕ → ℕ → ℕ → ℚ) → ℕ → ℕ → ℕ → ℚ
  | 0, q => q
  | n + 1, q =>
    let q' := sweepQ g q
    if maxAbsDiff g q q' < theta then q' else solveAux g theta n q'

/-- A one-cell terminal-only gridworld, used to instantiate the solver
statements at a concrete input. -/
def gWit : Gridworld := Gridworld.init 1 1 (fun _ _ => 1) (fun _ _ => 0) none none 1 (-1/100)

/-- The all-zero Q-table. -/
def qW : ℕ → ℕ → ℕ → ℚ := fun _ _ _ => 0

end GW

namespace KB

open scoped Classical

noncomputable section

/-- Streams of random values standing for the successive results of
`np.random.randn()`, `np.random.rand()` and the raw index drawn by
`np.random.choice` over a list (taken modulo the list's length, so every
index is reachable).  Each execution of the Python program corresponds to one
oracle. -/
structure Oracle where
  randn : ℕ → ℝ
  rand : ℕ → ℝ
  choice : ℕ → ℕ

/-- Per-stream counters: how many values of each stream were consumed. -/
structure Ctr where
  rn : ℕ
  rd : ℕ
  ch : ℕ

/-- Consume one `np.random.randn()` value. -/
def drawRandn (om : Oracle) (c : Ctr) : ℝ × Ctr :=
  (om.randn c.rn, { c with rn := c.rn + 1 })

/-- Consume one `np.random.rand()` value. -/
def drawRand (om : Oracle) (c : Ctr) : ℝ × Ctr :=
  (om.rand c.rd, { c with rd := c.rd + 1 })

/-- Consume one raw `np.random.choice` index. -/
def drawChoice (om : Oracle) (c : Ctr) : ℕ × Ctr :=
  (om.choice c.ch, { c with ch := c.ch + 1 })

/-- Uniform `np.random.choice(l)`: the raw index modulo the list length. -/
def chooseFrom (l : List ℕ) (raw : ℕ) : ℕ := l.getD (raw % l.length) 0

/-- Weighted `np.random.choice(items, p)` by inverse-CDF on one uniform draw
`u`: the first index whose cumulative probability exceeds `u`. -/
def pickWeighted (u : ℝ) : List ℝ → ℕ
  | [] => 0
  | p :: ps => if u < p then 0 else pickWeighted (u - p) ps + 1

/-- One bandit arm: its true mean and the name of its reward distribution
(src/k_armed_bandit/k_armed_bandit.py, class `Action`). -/
structure Action where
  mean : ℝ
  distribution : String

/-- The candidate distribution names of `Action.__init__`. -/
def distNames : List String := ["normal", "constant", "uniform"]

/-- Embedding of `Action.__init__`: the true mean is one fresh `randn()` draw;
the distribution is the given one when supplied, otherwise
`np.random.choice(["normal", "constant", "uniform"], p=[1, 0, 0])`. -/
def Action.make (dist : Option String) (om : Oracle) (c : Ctr) : Action × Ctr :=
  let mc := drawRandn om c
  match dist with
  | some d => ({ mean := mc.1, distribution := d }, mc.2)
  | none =>
    let uc := drawRand om mc.2
    ({ mean := mc.1,
       distribution := distNames.getD (pickWeighted uc.1 [1, 0, 0]) "normal" }, uc.2)

/-- Embedding of the closure returned by `Action.generate_distribution`:
normal draws `randn() + mean`, uniform draws `rand() + mean`, anything else
returns the mean exactly. -/
def Action.sample (a : Action) (om : Oracle) (c : Ctr) : ℝ × Ctr :=
  if a.distribution = "normal" then
    let zc := drawRandn om c
    (zc.1 + a.mean, zc.2)
  else if a.distribution = "uniform" then
    let uc := drawRand om c
    (uc.1 + a.mean, uc.2)
  else (a.mean, c)

/-- The three concrete strategies of src/k_armed_bandit/strategy.py with their
constructor parameters. -/
inductive Strat where
  | egreedy (epsilon initial : ℝ)
  | ucb (c initial : ℝ)
  | gradient (alpha : ℝ)

/-- Mutable per-strategy state: value estimates, selection counts (a numpy
float array in the source), the step counter, preference vector and reward
baseline.  Each variant uses the fields its Python class has. -/
structure SState where
  q : ℕ → ℝ
  sel : ℕ → ℝ
  t : ℕ
  pref : ℕ → ℝ
  baseline : ℝ

/-- Embedding of the `reset` methods: estimates back to `initial` (epsilon
greedy, UCB) or preferences, baseline and counter back to zero (gradient). -/
def Strat.reset (st : Strat) : SState :=
  match st with
  | .egreedy _ initial =>
    { q := fun _ => initial, sel := fun _ => 0, t := 0, pref := fun _ => 0, baseline := 0 }
  | .ucb _ initial =>
    { q := fun _ => initial, sel := fun _ => 0, t := 0, pref := fun _ => 0, baseline := 0 }
  | .gradient _ =>
    { q := fun _ => 0, sel := fun _ => 0, t := 0, pref := fun _ => 0, baseline := 0 }

/-- `np.max` of a nonempty list (0 for the empty list, which numpy rejects). -/
def maxList : List ℝ → ℝ
  | [] => 0
  | x :: xs => xs.foldl max x

/-- `np.where(f == m)[0]` over the first `k` indices. -/
def whereEq (k : ℕ) (f : ℕ → ℝ) (m : ℝ) : List ℕ :=
  (List.range k).filter fun i => decide (f i = m)

/-- Embedding of `EpsilonGreedy.act`: with probability epsilon a uniform arm,
otherwise a uniform choice among the arms tied for the maximal estimate. -/
def egreedyAct (k : ℕ) (epsilon : ℝ) (s : SState) (om : Oracle) (c : Ctr) : ℕ × Ctr :=
  let uc := drawRand om c
  let rc := drawChoice om uc.2
  if uc.1 < epsilon then (chooseFrom (List.range k) rc.1, rc.2)
  else (chooseFrom (whereEq k s.q (maxList ((List.range k).map s.q))) rc.1, rc.2)

/-- Embedding of `EpsilonGreedy.update`: the selection count of the chosen arm
is incremented first, and the incremental sample-average update divides by the
ALREADY INCREMENTED count. -/
def egreedyUpdate (s : SState) (a : ℕ) (r : ℝ) : SState :=
  let sel' := fun i => if i = a then s.sel i + 1 else s.sel i
  { s with sel := sel',
           q := fun i => if i = a then s.q i + (r - s.q i) / sel' i else s.q i }

/-- Embedding of the UCB score of one arm:
`q[a] + c * sqrt(log(t + 1) / (selections[a] + 1e-5))`. -/
def ucbScore (cc : ℝ) (s : SState) (a : ℕ) : ℝ :=
  s.q a + cc * Real.sqrt (Real.log ((s.t : ℝ) + 1) / (s.sel a + 1 / 100000))

/-- Embedding of `UCB.act`: a uniform choice among the arms tied for the
maximal UCB score. -/
def ucbAct (k : ℕ) (cc : ℝ) (s : SState) (om : Oracle) (c : Ctr) : ℕ × Ctr :=
  let m := maxList ((List.range k).map (ucbScore cc s))
  let rc := drawChoice om c
  (chooseFrom (whereEq k (ucbScore cc s) m) rc.1, rc.2)

/-- Embedding of `UCB.update`: bump the step counter, increment the selection
count, then the same incremental average update as epsilon-greedy. -/
def ucbUpdate (s : SState) (a : ℕ) (r : ℝ) : SState :=
  let sel' := fun i => if i = a then s.sel i + 1 else s.sel i
  { s with t := s.t + 1, sel := sel',
           q := fun i => if i = a then s.q i + (r - s.q i) / sel' i else s.q i }

/-- Embedding of `Gradient.softmax`: `np.exp(x) / sum(np.exp(x))`. -/
def softmaxL (x : List ℝ) : List ℝ :=
  x.map fun v => Real.exp v / (x.map Real.exp).sum

/-- Embedding of `Gradient.act`: sample an arm from the softmax distribution
over the preferences. -/
def gradientAct (k : ℕ) (s : SState) (om : Oracle) (c : Ctr) : ℕ × Ctr :=
  let p := softmaxL ((List.range k).map s.pref)
  let uc := drawRand om c
  (pickWeighted uc.1 p, uc.2)

/-- Embedding of `Gradient.update`: bump the counter, update the baseline
incrementally (the preference update then reads the NEW baseline), and move
the preferences by the gradient-bandit rule computed from the OLD softmax. -/
def gradientUpdate (k : ℕ) (alpha : ℝ) (s : SState) (a : ℕ) (r : ℝ) : SState :=
  let t' := s.t + 1
  let b' := s.baseline + (r - s.baseline) / (t' : ℝ)
  let sm := softmaxL ((List.range k).map s.pref)
  { s with t := t', baseline := b',
           pref := fun i =>
             s.pref i + alpha * (r - b') * ((if i = a then 1 else 0) - sm.getD i 0) }

/-- Dispatch of `act` over the strategy variants. -/
def Strat.act (st : Strat) (k : ℕ) (s : SState) (om : Oracle) (c : Ctr) : ℕ × Ctr :=
  match st with
  | .egreedy eps _ => egreedyAct k eps s om c
  | .ucb cc _ => ucbAct k cc s om c
  | .gradient _ => gradientAct k s om c

/-- Dispatch of `update` over the strategy variants. -/
def Strat.update (st : Strat) (k : ℕ) (s : SState) (a : ℕ) (r : ℝ) : SState :=
  match st with
  | .egreedy _ _ => egreedyUpdate s a r
  | .ucb _ _ => ucbUpdate s a r
  | .gradient alpha => gradientUpdate k alpha s a r

/-- A sequence of `update` calls applied from the reset state, in order. -/
def applyUpdates (st : Strat) (k : ℕ) : List (ℕ × ℝ) → SState → SState
  | [], s => s
  | (a, r) :: rest, s => applyUpdates st k rest (st.update k s a r)

/-- Trace of a fresh UCB run: state after `n` act/update steps from reset,
with tie-break raw indices `chi` and observed rewards `rew`. -/
def ucbTrace (k : ℕ) (cc initial : ℝ) (chi : ℕ → ℕ) (rew : ℕ → ℝ) : ℕ → SState
  | 0 => Strat.reset (.ucb cc initial)
  | n + 1 =>
    let s := ucbTrace k cc initial chi rew n
    let a := (ucbAct k cc s { randn := fun _ => 0, rand := fun _ => 0, choice := chi }
      { rn := 0, rd := 0, ch := n }).1
    ucbUpdate s a (rew n)

/-- The score bonus a never-selected arm holds over a once-selected arm at
step counter 1 (the tightest step), per unit of the exploration constant:
`sqrt(log 2 / 1e-5) - sqrt(log 2 / (1 + 1e-5))`. -/
def ucbGap : ℝ :=
  Real.sqrt (Real.log 2 / (1 / 100000)) - Real.sqrt (Real.log 2 / (1 + 1 / 100000))

/-- The global arm count `K = 10` of src/k_armed_bandit/k_armed_bandit.py. -/
def K : ℕ := 10

/-- Helper of `np.argmax`: first index attaining the running maximum. -/
def argmaxAux : List ℝ → ℕ → ℕ → ℝ → ℕ
  | [], _, best, _ => best
  | x :: xs, i, best, bv =>
    if bv < x then argmaxAux xs (i + 1) i x else argmaxAux xs (i + 1) best bv

/-- `np.argmax`: index of the first maximal entry. -/
def argmaxFirst : List ℝ → ℕ
  | [] => 0
  | x :: xs => argmaxAux xs 1 0 x

/-- The arm set `[Action() for _ in range(K)]`, drawn left to right. -/
def drawArms (om : Oracle) (c : Ctr) : ℕ → List Action × Ctr
  | 0 => ([], c)
  | n + 1 =>
    let ac := Action.make none om c
    let rest := drawArms om ac.2 n
    (ac.1 :: rest.1, rest.2)

/-- The inner time loop of `simulate`: at each step act, sample the chosen
arm's reward, record `(reward, optimal-choice indicator)`, update. -/
def runSteps (st : Strat) (actions : List Action) (best : ℕ) (om : Oracle) :
    ℕ → SState → Ctr → List (ℝ × ℝ) × SState × Ctr
  | 0, s, c => ([], s, c)
  | n + 1, s, c =>
    let ac := st.act K s om c
    let rc := (actions.getD ac.1 { mean := 0, distribution := "constant" }).sample om ac.2
    let s' := st.update K s ac.1 rc.1
    let flag : ℝ := if ac.1 = best then 1 else 0
    let rest := runSteps st actions best om n s' rc.2
    ((rc.1, flag) :: rest.1, rest.2.1, rest.2.2)

/-- The run loop of `simulate` for one strategy: reset, then `time` steps,
against the ONE arm set drawn before the loops. -/
def runTrials (st : Strat) (actions : List Action) (best : ℕ) (om : Oracle) (time : ℕ) :
    ℕ → Ctr → List (List (ℝ × ℝ)) × Ctr
  | 0, c => ([], c)
  | n + 1, c =>
    let res := runSteps st actions best om time st.reset c
    let rest := runTrials st actions best om time n res.2.2
    (res.1 :: rest.1, rest.2)

/-- The strategy loop of `simulate`. -/
def runStrats (actions : List Action) (best : ℕ) (om : Oracle) (runs time : ℕ) :
    List Strat → Ctr → List (List (List (ℝ × ℝ))) × Ctr
  | [], c => ([], c)
  | st :: sts, c =>
    let res := runTrials st actions best om time runs c
    let rest := runStrats actions best om runs time sts res.2
    (res.1 :: rest.1, rest.2)

/-- `mean(axis=1)`: column-wise mean of a `[runs, time]` block. -/
def meanCols (rows : List (List ℝ)) (time : ℕ) : List ℝ :=
  (List.range time).map fun t =>
    (rows.map fun row => row.getD t 0).sum / (rows.length : ℝ)

/-- Embedding of `simulate(strategies, runs, time)`
(src/k_armed_bandit/k_armed_bandit.py, lines 25-48): draw the `K` arms ONCE,
take the true-optimal arm as `np.argmax` of the means, run every strategy for
`runs` trials of `time` steps against that one arm set, and reduce the runs
axis of both records by mean. -/
def simulate (strats : List Strat) (runs time : ℕ) (om : Oracle) :
    List (List ℝ) × List (List ℝ) :=
  let start : Ctr := { rn := 0, rd := 0, ch := 0 }
  let arms := drawArms om start K
  let best := argmaxFirst (arms.1.map Action.mean)
  let tens := (runStrats arms.1 best om runs time strats arms.2).1
  (tens.map fun rows => meanCols (rows.map fun row => row.map Prod.fst) time,
   tens.map fun rows => meanCols (rows.map fun row => row.map Prod.snd) time)

/-- Modelled from the spec: the run loop of the BanditSimulator of spec
section 4.5 with the "redraw arms per trial" behaviour its Design Notes call
the intended one — a FRESH arm set (and its argmax) is drawn at the start of
every run; everything else is as in `runTrials`. -/
def runTrialsSpec (st : Strat) (om : Oracle) (time : ℕ) :
    ℕ → Ctr → List (List (ℝ × ℝ)) × Ctr
  | 0, c => ([], c)
  | n + 1, c =>
    let arms := drawArms om c K
    let best := argmaxFirst (arms.1.map Action.mean)
    let res := runSteps st arms.1 best om time st.reset arms.2
    let rest := runTrialsSpec st om time n res.2.2
    (res.1 :: rest.1, rest.2)

/-- Modelled from the spec: strategy loop over `runTrialsSpec`. -/
def runStratsSpec (om : Oracle) (runs time : ℕ) :
    List Strat → Ctr → List (List (List (ℝ × ℝ))) × Ctr
  | [], c => ([], c)
  | st :: sts, c =>
    let res := runTrialsSpec st om time runs c
    let rest := runStratsSpec om runs time sts res.2
    (res.1 :: rest.1, rest.2)

/-- Modelled from the spec: `simulate` with arms redrawn for every trial, the
variant the specification's Design Notes designate as intended. -/
def simulateSpec (strats : List Strat) (runs time : ℕ) (om : Oracle) :
    List (List ℝ) × List (List ℝ) :=
  let tens := (runStratsSpec om runs time strats { rn := 0, rd := 0, ch := 0 }).1
  (tens.map fun rows => meanCols (rows.map fun row => row.map Prod.fst) time,
   tens.map fun rows => meanCols (rows.map fun row => row.map Prod.snd) time)

/-- The oracle of all zero draws (used to instantiate universally quantified
statements at a concrete input). -/
def zeroOracle : Oracle := { randn := fun _ => 0, rand := fun _ => 0, choice := fun _ => 0 }

/-- A concrete oracle: the first `randn()` value is 5, all later ones 0; all
`rand()` values 0; all raw choice indices 0. -/
def cxOracle : Oracle :=
  { randn := fun n => if n = 0 then 5 else 0, rand := fun _ => 0, choice := fun _ => 0 }

/-- The pure greedy strategy `EpsilonGreedy(K)` of the driver. -/
def egZero : Strat := Strat.egreedy 0 0

end

end KB

/-! ## Properties -/

namespace GW

/-- C6: for every slip mapping supplied to the `Gridworld` constructor, the
stored slip model keeps the supplied left/right/backward probabilities and its
forward probability is derived as 1 minus their sum (never taken from the
input, whatever forward value the input carried); with no slip mapping the
stored model is forward 1 and left = right = backward = 0. -/
theorem gridworld_slip_forward_derived (h w : ℕ) (stateTypes : ℕ → ℕ → ℕ)
    (rewards : ℕ → ℕ → ℚ) (qt : Option (ℕ → ℕ → ℕ → ℚ)) (sl : Slip)
    (gamma stepReward : ℚ) :
    (Gridworld.init h w stateTypes rewards qt (some sl) gamma stepReward).slip =
      { left := sl.left, right := sl.right, backward := sl.backward,
        forward := 1 - sl.left - sl.right - sl.backward }
    ∧ (Gridworld.init h w stateTypes rewards qt none gamma stepReward).slip =
      { left := 0, right := 0, backward := 0, forward := 1 } :=
  ⟨rfl, rfl⟩

/-- C4 counterexample: constructing a `Gridworld` with slip probabilities
left = right = 3/5 (sum 6/5 > 1) does NOT fail: the constructor returns
normally and silently stores the negative forward probability -1/5. -/
theorem gridworld_overfull_slip_not_rejected :
    (Gridworld.init 1 1 (fun _ _ => 2) (fun _ _ => 0) none
        (some { left := 3/5, right := 3/5, backward := 0, forward := 0 })
        1 (-1/100)).slip.forward = -(1/5)
    ∧ (1 : ℚ) < 3/5 + 3/5 + 0 := by
  constructor
  · show (1 : ℚ) - 3/5 - 3/5 - 0 = -(1/5)
    norm_num
  · norm_num

/-- C4 amended: the constructor performs no validation of the slip mapping —
whenever the supplied left, right and backward probabilities sum to more than
1 it silently stores the (negative) derived forward probability
`1 - left - right - backward` instead of failing. -/
theorem gridworld_negative_forward_stored (h w : ℕ) (stateTypes : ℕ → ℕ → ℕ)
    (rewards : ℕ → ℕ → ℚ) (qt : Option (ℕ → ℕ → ℕ → ℚ)) (sl : Slip)
    (gamma stepReward : ℚ) (hover : 1 < sl.left + sl.right + sl.backward) :
    (Gridworld.init h w stateTypes rewards qt (some sl) gamma stepReward).slip.forward < 0
    ∧ (Gridworld.init h w stateTypes rewards qt (some sl) gamma stepReward).slip.forward
        = 1 - sl.left - sl.right - sl.backward := by
  refine ⟨?_, rfl⟩
  show 1 - sl.left - sl.right - sl.backward < 0
  linarith

/-- Witness for the amended C4 statement at the concrete slip mapping
left = right = 3/5. -/
theorem gridworld_negative_forward_stored_witness :
    (Gridworld.init 1 1 (fun _ _ => 2) (fun _ _ => 0) none
        (some { left := 3/5, right := 3/5, backward := 0, forward := 0 })
        1 (-1/100)).slip.forward < 0
    ∧ (Gridworld.init 1 1 (fun _ _ => 2) (fun _ _ => 0) none
        (some { left := 3/5, right := 3/5, backward := 0, forward := 0 })
        1 (-1/100)).slip.forward = 1 - 3/5 - 3/5 - 0 :=
  gridworld_negative_forward_stored 1 1 (fun _ _ => 2) (fun _ _ => 0) none
    { left := 3/5, right := 3/5, backward := 0, forward := 0 } 1 (-1/100) (by norm_num)

/-- C9: the constructor aliases and mutates the caller-supplied slip
dictionary: the stored slip reference is the caller's address, the dictionary
at that address has its forward entry overwritten with the derived remainder
(its other entries kept), and every other address is untouched. -/
theorem gridworld_init_mutates_caller_slip (store : ℕ → Slip) (a : ℕ) :
    (Gridworld.initSlipEffect store a).2 = a
    ∧ ((Gridworld.initSlipEffect store a).1 a).forward
        = 1 - (store a).left - (store a).right - (store a).backward
    ∧ ((Gridworld.initSlipEffect store a).1 a).left = (store a).left
    ∧ ((Gridworld.initSlipEffect store a).1 a).right = (store a).right
    ∧ ((Gridworld.initSlipEffect store a).1 a).backward = (store a).backward
    ∧ ∀ b, b ≠ a → (Gridworld.initSlipEffect store a).1 b = store b := by
  refine ⟨rfl, ?_, ?_, ?_, ?_, ?_⟩
  · simp [Gridworld.initSlipEffect]
  · simp [Gridworld.initSlipEffect]
  · simp [Gridworld.initSlipEffect]
  · simp [Gridworld.initSlipEffect]
  · intro b hb
    simp [Gridworld.initSlipEffect, hb]

end GW

namespace KB

/-- Selection counts stay nonnegative under any update sequence. -/
theorem applyUpdates_sel_nonneg (st : Strat) (k : ℕ) :
    ∀ (l : List (ℕ × ℝ)) (s : SState), (∀ b, 0 ≤ s.sel b) →
      ∀ a, 0 ≤ (applyUpdates st k l s).sel a := by
  intro l
  induction l with
  | nil => intro s hs a; simpa [applyUpdates] using hs a
  | cons p rest ih =>
    obtain ⟨pa, pr⟩ := p
    intro s hs a
    rw [applyUpdates]
    refine ih (st.update k s pa pr) ?_ a
    intro b
    cases st with
    | egreedy e i =>
      simp only [Strat.update, egreedyUpdate]
      split
      · linarith [hs b]
      · exact hs b
    | ucb c i =>
      simp only [Strat.update, ucbUpdate]
      split
      · linarith [hs b]
      · exact hs b
    | gradient al =>
      simpa [Strat.update, gradientUpdate] using hs b

/-- Reset selection counts are zero, hence nonnegative. -/
theorem reset_sel_nonneg (st : Strat) : ∀ b, 0 ≤ st.reset.sel b := by
  intro b
  cases st <;> simp [Strat.reset]

/-- C7: in `EpsilonGreedy.update` the selection count of the chosen arm is
incremented first and the incremental average divides by the incremented
count, so along every update sequence from the reset state the divisor is at
least 1; and the `UCB.act` divisor `selections[a] + 1e-5` is strictly
positive at every reachable state. -/
theorem update_divisor_positive (st : Strat) (k : ℕ) (l : List (ℕ × ℝ))
    (a : ℕ) (r : ℝ) :
    (egreedyUpdate (applyUpdates st k l st.reset) a r).sel a
        = (applyUpdates st k l st.reset).sel a + 1
    ∧ (egreedyUpdate (applyUpdates st k l st.reset) a r).q a
        = (applyUpdates st k l st.reset).q a
          + (r - (applyUpdates st k l st.reset).q a)
            / ((applyUpdates st k l st.reset).sel a + 1)
    ∧ 1 ≤ (applyUpdates st k l st.reset).sel a + 1
    ∧ 0 < (applyUpdates st k l st.reset).sel a + 1 / 100000 := by
  have hnn : 0 ≤ (applyUpdates st k l st.reset).sel a :=
    applyUpdates_sel_nonneg st k l st.reset (reset_sel_nonneg st) a
  refine ⟨by simp [egreedyUpdate], by simp [egreedyUpdate], by linarith, by linarith⟩

/-- C8: the softmax of every nonempty preference vector has nonnegative
components summing exactly to 1 (over real arithmetic). -/
theorem softmax_nonneg_sum_one (x : List ℝ) (hx : x ≠ []) :
    (∀ y ∈ softmaxL x, 0 ≤ y) ∧ (softmaxL x).sum = 1 := by
  have hpos : 0 < (x.map Real.exp).sum := by
    apply List.sum_pos
    · intro y hy
      obtain ⟨v, hv, rfl⟩ := List.mem_map.mp hy
      exact Real.exp_pos v
    · simpa using hx
  constructor
  · intro y hy
    obtain ⟨v, hv, rfl⟩ := List.mem_map.mp hy
    exact div_nonneg (Real.exp_pos v).le hpos.le
  · have hmap : (softmaxL x).sum = (x.map Real.exp).sum / (x.map Real.exp).sum := by
      unfold softmaxL
      simp only [div_eq_mul_inv]
      rw [List.sum_map_mul_right]
    rw [hmap, div_self hpos.ne']

/-- Witness for C8 at the one-element preference vector `[0]`. -/
theorem softmax_nonneg_sum_one_witness :
    (∀ y ∈ softmaxL [(0 : ℝ)], 0 ≤ y) ∧ (softmaxL [(0 : ℝ)]).sum = 1 :=
  softmax_nonneg_sum_one [(0 : ℝ)] (by simp)

/-- C10: every `Action` constructed without a distribution argument gets
distribution "normal" (the weighted choice with probabilities `[1, 0, 0]`
always lands on the first name for a uniform draw in `[0, 1)`), its mean is
the fresh `randn()` value, and its reward sample is a `randn()` draw plus the
mean. -/
theorem action_default_normal (om om' : Oracle) (c c' : Ctr)
    (h0 : 0 ≤ om.rand c.rd) (h1 : om.rand c.rd < 1) :
    (Action.make none om c).1.distribution = "normal"
    ∧ (Action.make none om c).1.mean = om.randn c.rn
    ∧ ((Action.make none om c).1.sample om' c').1 = om'.randn c'.rn + om.randn c.rn := by
  have hd : (Action.make none om c).1.distribution = "normal" := by
    simp [Action.make, drawRandn, drawRand, pickWeighted, h1, distNames]
  refine ⟨hd, by simp [Action.make, drawRandn], ?_⟩
  have hm : (Action.make none om c).1.mean = om.randn c.rn := by
    simp [Action.make, drawRandn]
  simp [Action.sample, hd, hm, drawRandn]

/-- Witness for C10 at the all-zero oracle. -/
theorem action_default_normal_witness :
    (Action.make none zeroOracle { rn := 0, rd := 0, ch := 0 }).1.distribution = "normal"
    ∧ (Action.make none zeroOracle { rn := 0, rd := 0, ch := 0 }).1.mean
        = zeroOracle.randn 0
    ∧ ((Action.make none zeroOracle { rn := 0, rd := 0, ch := 0 }).1.sample zeroOracle
        { rn := 0, rd := 0, ch := 0 }).1 = zeroOracle.randn 0 + zeroOracle.randn 0 :=
  action_default_normal zeroOracle zeroOracle { rn := 0, rd := 0, ch := 0 }
    { rn := 0, rd := 0, ch := 0 } (by norm_num [zeroOracle]) (by norm_num [zeroOracle])

end KB

namespace GW

/-- The running maximum over a list of rationals (base 0) is nonnegative. -/
theorem foldrMax_nonneg (l : List ℚ) : 0 ≤ l.foldr max 0 := by
  induction l with
  | nil => simp
  | cons x xs ih => exact le_max_of_le_right ih

/-- Every member of a list is at most the running maximum (base 0). -/
theorem le_foldrMax (l : List ℚ) (x : ℚ) (hx : x ∈ l) : x ≤ l.foldr max 0 := by
  induction l with
  | nil => cases hx
  | cons y ys ih =>
    rcases List.mem_cons.mp hx with h | h
    · exact h ▸ le_max_left _ _
    · exact le_max_of_le_right (ih h)

/-- The running maximum of a list of values all below a positive bound stays
below the bound. -/
theorem foldrMax_lt (l : List ℚ) (c : ℚ) (hc : 0 < c) (h : ∀ x ∈ l, x < c) :
    l.foldr max 0 < c := by
  induction l with
  | nil => simpa using hc
  | cons y ys ih =>
    exact max_lt (h y (List.mem_cons_self y ys))
      (ih fun x hx => h x (List.mem_cons_of_mem _ hx))

/-- Each in-range entry change is bounded by the sweep's maximum change. -/
theorem abs_le_maxAbsDiff (g : Gridworld) (q q' : ℕ → ℕ → ℕ → ℚ) (i j a : ℕ)
    (h : (i, j, a) ∈ allIdx g) :
    |q' i j a - q i j a| ≤ maxAbsDiff g q q' := by
  unfold maxAbsDiff
  refine le_foldrMax _ _ ?_
  simp only [List.mem_map]
  exact ⟨(i, j, a), h, rfl⟩

/-- Entries outside the processed index list are never written by the sweep
fold. -/
theorem foldl_sweepStep_out (g : Gridworld) (l : List (ℕ × ℕ × ℕ))
    (q : ℕ → ℕ → ℕ → ℚ) (i j a : ℕ) (h : (i, j, a) ∉ l) :
    (l.foldl (sweepStep g) q) i j a = q i j a := by
  induction l generalizing q with
  | nil => rfl
  | cons e es ih =>
    obtain ⟨e1, e2, e3⟩ := e
    have hne : (i, j, a) ≠ (e1, e2, e3) := fun hc => h (hc ▸ List.mem_cons_self _ _)
    have hes : (i, j, a) ∉ es := fun hc => h (List.mem_cons_of_mem _ hc)
    rw [List.foldl_cons, ih _ hes]
    unfold sweepStep
    split
    · unfold writeQ
      rw [if_neg]
      rintro ⟨rfl, rfl, rfl⟩
      exact hne rfl
    · rfl

/-- The best-of-four-actions lookup is nonexpansive: if two tables differ by
at most `B` everywhere, their `maxQ` values differ by at most `B`. -/
theorem maxQ_diff (x y : ℕ → ℕ → ℕ → ℚ) (B : ℚ)
    (hxy : ∀ i j a, |x i j a - y i j a| ≤ B) (i j : ℕ) :
    |maxQ x i j - maxQ y i j| ≤ B := by
  unfold maxQ
  refine le_trans (abs_max_sub_max_le_max _ _ _ _) (max_le ?_ ?_)
  · exact le_trans (abs_max_sub_max_le_max _ _ _ _) (max_le (hxy i j 0) (hxy i j 1))
  · exact le_trans (abs_max_sub_max_le_max _ _ _ _) (max_le (hxy i j 2) (hxy i j 3))

/-- One slip outcome's backup value moves by at most `gamma * B` when the
lookup table moves by at most `B`. -/
theorem outcomeVal_diff (g : Gridworld) (x y : ℕ → ℕ → ℕ → ℚ) (B : ℚ)
    (hg0 : 0 ≤ g.gamma) (hxy : ∀ i j a, |x i j a - y i j a| ≤ B) (i j a lbl : ℕ) :
    |outcomeVal g x i j a lbl - outcomeVal g y i j a lbl| ≤ g.gamma * B := by
  unfold outcomeVal
  have hrw : ∀ c1 c2 : ℕ,
      cellReward g c1 c2 + g.gamma * maxQ x c1 c2
        - (cellReward g c1 c2 + g.gamma * maxQ y c1 c2)
      = g.gamma * (maxQ x c1 c2 - maxQ y c1 c2) := by
    intro c1 c2; ring
  rw [hrw]
  rw [abs_mul, abs_of_nonneg hg0]
  exact mul_le_mul_of_nonneg_left (maxQ_diff x y B hxy _ _) hg0

/-- The backup target is nonexpansive when the slip probabilities are a
distribution and `0 ≤ gamma ≤ 1`. -/
theorem targetQ_diff (g : Gridworld) (x y : ℕ → ℕ → ℕ → ℚ) (B : ℚ) (hB : 0 ≤ B)
    (hl : 0 ≤ g.slip.left) (hr : 0 ≤ g.slip.right)
    (hb : 0 ≤ g.slip.backward) (hf : 0 ≤ g.slip.forward)
    (hsum : g.slip.forward + g.slip.right + g.slip.backward + g.slip.left = 1)
    (hg0 : 0 ≤ g.gamma) (hg1 : g.gamma ≤ 1)
    (hxy : ∀ i j a, |x i j a - y i j a| ≤ B) (i j a : ℕ) :
    |targetQ g x i j a - targetQ g y i j a| ≤ B := by
  have h0 := outcomeVal_diff g x y B hg0 hxy i j a 0
  have h1 := outcomeVal_diff g x y B hg0 hxy i j a 1
  have h2 := outcomeVal_diff g x y B hg0 hxy i j a 2
  have h3 := outcomeVal_diff g x y B hg0 hxy i j a 3
  have habs : ∀ p d : ℚ, 0 ≤ p → |d| ≤ g.gamma * B → |p * d| ≤ p * (g.gamma * B) := by
    intro p d hp hd
    rw [abs_mul, abs_of_nonneg hp]
    exact mul_le_mul_of_nonneg_left hd hp
  have e0 := habs _ _ hf h0
  have e1 := habs _ _ hr h1
  have e2 := habs _ _ hb h2
  have e3 := habs _ _ hl h3
  have hexp : targetQ g x i j a - targetQ g y i j a
      = slipProb g.slip 0 * (outcomeVal g x i j a 0 - outcomeVal g y i j a 0)
        + slipProb g.slip 1 * (outcomeVal g x i j a 1 - outcomeVal g y i j a 1)
        + slipProb g.slip 2 * (outcomeVal g x i j a 2 - outcomeVal g y i j a 2)
        + slipProb g.slip 3 * (outcomeVal g x i j a 3 - outcomeVal g y i j a 3) := by
    unfold targetQ; ring
  have hsum' : slipProb g.slip 0 * (g.gamma * B) + slipProb g.slip 1 * (g.gamma * B)
      + slipProb g.slip 2 * (g.gamma * B) + slipProb g.slip 3 * (g.gamma * B)
      = g.gamma * B := by
    have : slipProb g.slip 0 + slipProb g.slip 1 + slipProb g.slip 2 + slipProb g.slip 3
        = 1 := by
      simpa [slipProb] using hsum
    calc slipProb g.slip 0 * (g.gamma * B) + slipProb g.slip 1 * (g.gamma * B)
          + slipProb g.slip 2 * (g.gamma * B) + slipProb g.slip 3 * (g.gamma * B)
        = (slipProb g.slip 0 + slipProb g.slip 1 + slipProb g.slip 2 + slipProb g.slip 3)
            * (g.gamma * B) := by ring
      _ = 1 * (g.gamma * B) := by rw [this]
      _ = g.gamma * B := one_mul _
  have hgB : g.gamma * B ≤ B := mul_le_of_le_one_left hB hg1
  rw [hexp]
  have hstep : |slipProb g.slip 0 * (outcomeVal g x i j a 0 - outcomeVal g y i j a 0)
        + slipProb g.slip 1 * (outcomeVal g x i j a 1 - outcomeVal g y i j a 1)
        + slipProb g.slip 2 * (outcomeVal g x i j a 2 - outcomeVal g y i j a 2)
        + slipProb g.slip 3 * (outcomeVal g x i j a 3 - outcomeVal g y i j a 3)|
      ≤ |slipProb g.slip 0 * (outcomeVal g x i j a 0 - outcomeVal g y i j a 0)|
        + |slipProb g.slip 1 * (outcomeVal g x i j a 1 - outcomeVal g y i j a 1)|
        + |slipProb g.slip 2 * (outcomeVal g x i j a 2 - outcomeVal g y i j a 2)|
        + |slipProb g.slip 3 * (outcomeVal g x i j a 3 - outcomeVal g y i j a 3)| := by
    refine le_trans (abs_add _ _) ?_
    refine add_le_add ?_ le_rfl
    refine le_trans (abs_add _ _) ?_
    exact add_le_add (abs_add _ _) le_rfl
  simp only [slipProb] at hexp hsum' e0 e1 e2 e3 hstep ⊢
  linarith

/-- A Gauss-Seidel sweep prefix is nonexpansive in the pointwise sup bound. -/
theorem foldl_sweepStep_nonexpansive (g : Gridworld) (B : ℚ) (hB : 0 ≤ B)
    (hl : 0 ≤ g.slip.left) (hr : 0 ≤ g.slip.right)
    (hb : 0 ≤ g.slip.backward) (hf : 0 ≤ g.slip.forward)
    (hsum : g.slip.forward + g.slip.right + g.slip.backward + g.slip.left = 1)
    (hg0 : 0 ≤ g.gamma) (hg1 : g.gamma ≤ 1) :
    ∀ (l : List (ℕ × ℕ × ℕ)) (x y : ℕ → ℕ → ℕ → ℚ),
      (∀ i j a, |x i j a - y i j a| ≤ B) →
      ∀ i j a, |(l.foldl (sweepStep g) x) i j a - (l.foldl (sweepStep g) y) i j a| ≤ B := by
  intro l
  induction l with
  | nil => intro x y hxy; simpa using hxy
  | cons e es ih =>
    intro x y hxy
    rw [List.foldl_cons, List.foldl_cons]
    apply ih
    intro i j a
    unfold sweepStep
    by_cases hc : g.stateTypes e.1 e.2.1 = 0
    · simp only [if_pos hc]
      unfold writeQ
      by_cases he : i = e.1 ∧ j = e.2.1 ∧ a = e.2.2
      · simp only [if_pos he]
        exact targetQ_diff g x y B hB hl hr hb hf hsum hg0 hg1 hxy _ _ _
      · simp only [if_neg he]
        exact hxy i j a
    · simp only [if_neg hc]
      exact hxy i j a

/-- C5 (spec-modelled): once `solve` has converged the Q-table — the final
sweep changed no entry by `theta` or more — invoking `solve` again on the
same inputs changes every Q-entry by less than `theta`: with a proper slip
distribution and `0 ≤ gamma ≤ 1` the sweep is nonexpansive, so the re-run's
first sweep already meets the stopping test and its total change stays below
`theta`. -/
theorem solve_idempotent_after_convergence (g : Gridworld) (theta : ℚ)
    (q0 : ℕ → ℕ → ℕ → ℚ) (fuel : ℕ)
    (hl : 0 ≤ g.slip.left) (hr : 0 ≤ g.slip.right)
    (hb : 0 ≤ g.slip.backward) (hf : 0 ≤ g.slip.forward)
    (hsum : g.slip.forward + g.slip.right + g.slip.backward + g.slip.left = 1)
    (hg0 : 0 ≤ g.gamma) (hg1 : g.gamma ≤ 1)
    (hconv : maxAbsDiff g q0 (sweepQ g q0) < theta) (hfuel : 0 < fuel) :
    ∀ i j a, |solveAux g theta fuel (sweepQ g q0) i j a - sweepQ g q0 i j a| < theta := by
  have hBnn : 0 ≤ maxAbsDiff g q0 (sweepQ g q0) := foldrMax_nonneg _
  have htheta : 0 < theta := lt_of_le_of_lt hBnn hconv
  have hq01 : ∀ i j a, |sweepQ g q0 i j a - q0 i j a| ≤ maxAbsDiff g q0 (sweepQ g q0) := by
    intro i j a
    by_cases hmem : (i, j, a) ∈ allIdx g
    · exact abs_le_maxAbsDiff g q0 (sweepQ g q0) i j a hmem
    · have hout : (allIdx g).foldl (sweepStep g) q0 i j a = q0 i j a :=
        foldl_sweepStep_out g (allIdx g) q0 i j a hmem
      have : sweepQ g q0 i j a = q0 i j a := hout
      simp [this, hBnn]
  have hq12 : ∀ i j a, |sweepQ g (sweepQ g q0) i j a - sweepQ g q0 i j a|
      ≤ maxAbsDiff g q0 (sweepQ g q0) := by
    intro i j a
    exact foldl_sweepStep_nonexpansive g (maxAbsDiff g q0 (sweepQ g q0)) hBnn
      hl hr hb hf hsum hg0 hg1 (allIdx g) (sweepQ g q0) q0 hq01 i j a
  have hlt : ∀ i j a, |sweepQ g (sweepQ g q0) i j a - sweepQ g q0 i j a| < theta :=
    fun i j a => lt_of_le_of_lt (hq12 i j a) hconv
  have hcond : maxAbsDiff g (sweepQ g q0) (sweepQ g (sweepQ g q0)) < theta := by
    apply foldrMax_lt _ _ htheta
    intro x hx
    obtain ⟨e, he, rfl⟩ := List.mem_map.mp hx
    exact hlt e.1 e.2.1 e.2.2
  obtain ⟨n, rfl⟩ : ∃ n, fuel = n + 1 := ⟨fuel - 1, (Nat.succ_pred_eq_of_pos hfuel).symm⟩
  intro i j a
  rw [solveAux]
  simp only [if_pos hcond]
  exact hlt i j a

/-- Witness for C5 at the one-cell terminal grid with the all-zero Q-table,
`theta = 1` and one unit of fuel. -/
theorem solve_idempotent_after_convergence_witness :
    |solveAux gWit 1 1 (sweepQ gWit qW) 0 0 0 - sweepQ gWit qW 0 0 0| < 1 :=
  solve_idempotent_after_convergence gWit 1 qW 1
    (by norm_num [gWit, Gridworld.init, defaultSlip])
    (by norm_num [gWit, Gridworld.init, defaultSlip])
    (by norm_num [gWit, Gridworld.init, defaultSlip])
    (by norm_num [gWit, Gridworld.init, defaultSlip])
    (by norm_num [gWit, Gridworld.init, defaultSlip])
    (by norm_num [gWit, Gridworld.init])
    (by norm_num [gWit, Gridworld.init])
    (by norm_num [maxAbsDiff, allIdx, sweepQ, sweepStep, gWit, qW, Gridworld.init,
      List.range_succ])
    (by norm_num)
    0 0 0

end GW

namespace KB

/-- The inner time loop returns exactly one record per step. -/
theorem runSteps_length (st : Strat) (actions : List Action) (best : ℕ) (om : Oracle) :
    ∀ (n : ℕ) (s : SState) (c : Ctr), (runSteps st actions best om n s c).1.length = n := by
  intro n
  induction n with
  | zero => intro s c; rfl
  | succ m ih =>
    intro s c
    simp only [runSteps, List.length_cons]
    rw [ih]

/-- Every optimal-choice indicator recorded by the inner loop is 0 or 1. -/
theorem runSteps_flag01 (st : Strat) (actions : List Action) (best : ℕ) (om : Oracle) :
    ∀ (n : ℕ) (s : SState) (c : Ctr) (p : ℝ × ℝ),
      p ∈ (runSteps st actions best om n s c).1 → p.2 = 0 ∨ p.2 = 1 := by
  intro n
  induction n with
  | zero => intro s c p hp; cases hp
  | succ m ih =>
    intro s c p hp
    simp only [runSteps] at hp
    rcases List.mem_cons.mp hp with h | h
    · subst h
      by_cases hb : (st.act K s om c).1 = best
      · right; simp [hb]
      · left; simp [hb]
    · exact ih _ _ p h

/-- The run loop returns one row per run. -/
theorem runTrials_length (st : Strat) (actions : List Action) (best : ℕ) (om : Oracle)
    (time : ℕ) : ∀ (runs : ℕ) (c : Ctr),
    (runTrials st actions best om time runs c).1.length = runs := by
  intro runs
  induction runs with
  | zero => intro c; rfl
  | succ m ih =>
    intro c
    simp only [runTrials, List.length_cons]
    rw [ih]

/-- Every row built by the run loop has one entry per step, all indicator
components 0 or 1. -/
theorem runTrials_rows (st : Strat) (actions : List Action) (best : ℕ) (om : Oracle)
    (time : ℕ) : ∀ (runs : ℕ) (c : Ctr) (row : List (ℝ × ℝ)),
      row ∈ (runTrials st actions best om time runs c).1 →
      row.length = time ∧ ∀ p ∈ row, p.2 = 0 ∨ p.2 = 1 := by
  intro runs
  induction runs with
  | zero => intro c row hrow; cases hrow
  | succ m ih =>
    intro c row hrow
    simp only [runTrials] at hrow
    rcases List.mem_cons.mp hrow with h | h
    · subst h
      exact ⟨runSteps_length st actions best om time _ _,
        fun p hp => runSteps_flag01 st actions best om time _ _ p hp⟩
    · exact ih _ row h

/-- The strategy loop returns one block per strategy. -/
theorem runStrats_length (actions : List Action) (best : ℕ) (om : Oracle)
    (runs time : ℕ) : ∀ (sts : List Strat) (c : Ctr),
    (runStrats actions best om runs time sts c).1.length = sts.length := by
  intro sts
  induction sts with
  | nil => intro c; rfl
  | cons st rest ih =>
    intro c
    simp only [runStrats, List.length_cons]
    rw [ih]

/-- Every block built by the strategy loop has `runs` rows of `time` steps,
all indicator components 0 or 1. -/
theorem runStrats_blocks (actions : List Action) (best : ℕ) (om : Oracle)
    (runs time : ℕ) : ∀ (sts : List Strat) (c : Ctr) (block : List (List (ℝ × ℝ))),
      block ∈ (runStrats actions best om runs time sts c).1 →
      block.length = runs
      ∧ ∀ row ∈ block, row.length = time ∧ ∀ p ∈ row, p.2 = 0 ∨ p.2 = 1 := by
  intro sts
  induction sts with
  | nil => intro c block hb; cases hb
  | cons st rest ih =>
    intro c block hb
    simp only [runStrats] at hb
    rcases List.mem_cons.mp hb with h | h
    · subst h
      exact ⟨runTrials_length st actions best om time runs c,
        fun row hrow => runTrials_rows st actions best om time runs c row hrow⟩
    · exact ih _ block h

/-- The column-wise mean has one entry per time step. -/
theorem meanCols_length (rows : List (List ℝ)) (time : ℕ) :
    (meanCols rows time).length = time := by
  simp [meanCols]

/-- A list of reals that are all at most 1 sums to at most the length. -/
theorem list_sum_le_length (l : List ℝ) (h : ∀ v ∈ l, v ≤ 1) :
    l.sum ≤ (l.length : ℝ) := by
  induction l with
  | nil => simp
  | cons x xs ih =>
    simp only [List.sum_cons, List.length_cons]
    push_cast
    have hx := h x (List.mem_cons_self x xs)
    have hxs := ih fun v hv => h v (List.mem_cons_of_mem _ hv)
    linarith

/-- Column means of a nonempty block of values in `[0, 1]` lie in `[0, 1]`. -/
theorem meanCols_bounds (rows : List (List ℝ)) (time : ℕ) (h0 : 0 < rows.length)
    (hval : ∀ row ∈ rows, ∀ v ∈ row, 0 ≤ v ∧ v ≤ 1) :
    ∀ x ∈ meanCols rows time, 0 ≤ x ∧ x ≤ 1 := by
  intro x hx
  simp only [meanCols, List.mem_map, List.mem_range] at hx
  obtain ⟨t, ht, rfl⟩ := hx
  have hcol : ∀ v ∈ rows.map fun row => row.getD t 0, 0 ≤ v ∧ v ≤ 1 := by
    intro v hv
    obtain ⟨row, hrow, rfl⟩ := List.mem_map.mp hv
    by_cases htl : t < row.length
    · have hmem : row.getD t 0 ∈ row := by
        rw [List.getD_eq_getElem row 0 htl]
        exact List.getElem_mem htl
      exact hval row hrow _ hmem
    · rw [List.getD_eq_default row 0 (Nat.le_of_not_lt htl)]
      norm_num
  have hlen : ((rows.map fun row => row.getD t 0).length : ℝ) = (rows.length : ℝ) := by
    rw [List.length_map]
  have hsn : 0 ≤ (rows.map fun row => row.getD t 0).sum :=
    List.sum_nonneg fun v hv => (hcol v hv).1
  have hsl : (rows.map fun row => row.getD t 0).sum ≤ (rows.length : ℝ) := by
    rw [← hlen]
    exact list_sum_le_length _ fun v hv => (hcol v hv).2
  have hpos : (0 : ℝ) < (rows.length : ℝ) := by exact_mod_cast h0
  constructor
  · exact div_nonneg hsn hpos.le
  · rw [div_le_one hpos]
    exact hsl

/-- C3: `simulate` returns two matrices with one row per strategy and one
column per time step (the runs axis is reduced by mean), and every entry of
the optimal-action matrix lies in `[0, 1]`; instantiating the strategy list,
`runs = 100`, `time = 50` (with the global `K = 10`) gives exactly the
`[2, 50]` shapes of the end-to-end scenario. -/
theorem simulate_shapes_and_bounds (strats : List Strat) (runs time : ℕ)
    (om : Oracle) (hruns : 0 < runs) :
    (simulate strats runs time om).1.length = strats.length
    ∧ (simulate strats runs time om).2.length = strats.length
    ∧ (∀ row ∈ (simulate strats runs time om).1, row.length = time)
    ∧ (∀ row ∈ (simulate strats runs time om).2, row.length = time)
    ∧ ∀ row ∈ (simulate strats runs time om).2, ∀ x ∈ row, 0 ≤ x ∧ x ≤ 1 := by
  simp only [simulate]
  refine ⟨?_, ?_, ?_, ?_, ?_⟩
  · rw [List.length_map, runStrats_length]
  · rw [List.length_map, runStrats_length]
  · intro row hrow
    obtain ⟨block, hb, rfl⟩ := List.mem_map.mp hrow
    exact meanCols_length _ _
  · intro row hrow
    obtain ⟨block, hb, rfl⟩ := List.mem_map.mp hrow
    exact meanCols_length _ _
  · intro row hrow
    obtain ⟨block, hb, rfl⟩ := List.mem_map.mp hrow
    have hblock := runStrats_blocks _ _ om runs time strats _ block hb
    apply meanCols_bounds
    · rw [List.length_map, hblock.1]
      exact hruns
    · intro row' hrow' v hv
      obtain ⟨row'', hrow'', rfl⟩ := List.mem_map.mp hrow'
      obtain ⟨p, hp, rfl⟩ := List.mem_map.mp hv
      rcases (hblock.2 row'' hrow'').2 p hp with h | h
      · rw [h]; norm_num
      · rw [h]; norm_num

/-- Witness for C3 with one greedy strategy, one run, one step, at the
all-zero oracle. -/
theorem simulate_shapes_and_bounds_witness :
    (simulate [egZero] 1 1 zeroOracle).1.length = [egZero].length
    ∧ (simulate [egZero] 1 1 zeroOracle).2.length = [egZero].length
    ∧ (∀ row ∈ (simulate [egZero] 1 1 zeroOracle).1, row.length = 1)
    ∧ (∀ row ∈ (simulate [egZero] 1 1 zeroOracle).2, row.length = 1)
    ∧ ∀ row ∈ (simulate [egZero] 1 1 zeroOracle).2, ∀ x ∈ row, 0 ≤ x ∧ x ≤ 1 :=
  simulate_shapes_and_bounds [egZero] 1 1 zeroOracle (by norm_num)

end KB

namespace KB

/-- C1: the source `simulate` draws the arm set ONCE, before the strategy and
run loops, and reuses it for every run.  At the concrete oracle whose first
`randn()` value is 5 (all later ones 0), with one greedy strategy, 2 runs and
1 step, both runs of `simulate` see the lucky first arm (mean 5) and the mean
reward curve is `[[5]]`; the spec-intended per-trial redraw (`simulateSpec`)
gives the second run fresh zero-mean arms and the curve `[[5/2]]` — the two
behaviours differ observably on the same random stream. -/
theorem simulate_reuses_one_arm_set :
    (simulate [egZero] 2 1 cxOracle).1 = [[5]]
    ∧ (simulateSpec [egZero] 2 1 cxOracle).1 = [[5 / 2]]
    ∧ (simulate [egZero] 2 1 cxOracle).1 ≠ (simulateSpec [egZero] 2 1 cxOracle).1 := by
  have hmk : ∀ c : Ctr, Action.make none cxOracle c
      = ({ mean := cxOracle.randn c.rn, distribution := "normal" },
         { rn := c.rn + 1, rd := c.rd + 1, ch := c.ch }) := by
    intro c
    norm_num [Action.make, drawRandn, drawRand, pickWeighted, distNames, cxOracle]
  have hrange : List.range 10 = [0, 1, 2, 3, 4, 5, 6, 7, 8, 9] := rfl
  have hrange1 : List.range 1 = [0] := rfl
  have h1 : (simulate [egZero] 2 1 cxOracle).1 = [[5]] := by
    simp only [simulate, K]
    simp only [drawArms, hmk]
    norm_num [cxOracle]
    norm_num [runStrats, runTrials, runSteps, Strat.act, egZero, egreedyAct, Strat.reset,
      Strat.update, egreedyUpdate, drawRand, drawChoice, chooseFrom, whereEq, maxList, K,
      hrange, hrange1, List.replicate, Action.sample, drawRandn, argmaxFirst, argmaxAux,
      meanCols, cxOracle, List.getD, List.filter]
  have h2 : (simulateSpec [egZero] 2 1 cxOracle).1 = [[5 / 2]] := by
    simp only [simulateSpec, K]
    simp only [runStratsSpec, runTrialsSpec, K, drawArms, hmk]
    norm_num [cxOracle]
    norm_num [runSteps, Strat.act, egZero, egreedyAct, Strat.reset,
      Strat.update, egreedyUpdate, drawRand, drawChoice, chooseFrom, whereEq, maxList, K,
      hrange, hrange1, List.replicate, Action.sample, drawRandn, argmaxFirst, argmaxAux,
      meanCols, cxOracle, List.getD, List.filter]
  refine ⟨h1, h2, ?_⟩
  rw [h1, h2]
  intro hc
  have := List.head_eq_of_cons_eq hc
  have h5 : (5 : ℝ) = 5 / 2 := List.head_eq_of_cons_eq this
  norm_num at h5

end KB

namespace KB

theorem le_foldl_max (l : List ℝ) : ∀ b : ℝ, b ≤ l.foldl max b := by
  induction l with
  | nil => intro b; exact le_rfl
  | cons z zs ih => intro b; exact le_trans (le_max_left b z) (ih (max b z))

theorem mem_le_foldl_max (l : List ℝ) : ∀ (b x : ℝ), x ∈ l → x ≤ l.foldl max b := by
  induction l with
  | nil => intro b x hx; cases hx
  | cons z zs ih =>
    intro b x hx
    rcases List.mem_cons.mp hx with h | h
    · subst h
      exact le_trans (le_max_right b x) (le_foldl_max zs (max b x))
    · exact ih (max b z) x h

theorem le_maxList (l : List ℝ) (x : ℝ) (hx : x ∈ l) : x ≤ maxList l := by
  cases l with
  | nil => cases hx
  | cons y ys =>
    rcases List.mem_cons.mp hx with h | h
    · subst h
      exact le_foldl_max ys x
    · exact mem_le_foldl_max ys y x h

theorem foldl_max_mem (l : List ℝ) : ∀ b : ℝ, l.foldl max b ∈ b :: l := by
  induction l with
  | nil => intro b; exact List.mem_cons_self b []
  | cons z zs ih =>
    intro b
    simp only [List.foldl_cons]
    rcases List.mem_cons.mp (ih (max b z)) with h | h
    · rcases max_choice b z with hb | hz
      · rw [h, hb]
        exact List.mem_cons_self b (z :: zs)
      · rw [h, hz]
        exact List.mem_cons_of_mem _ (List.mem_cons_self z zs)
    · exact List.mem_cons_of_mem _ (List.mem_cons_of_mem _ h)

theorem maxList_mem (l : List ℝ) (hl : l ≠ []) : maxList l ∈ l := by
  cases l with
  | nil => exact absurd rfl hl
  | cons y ys =>
    show ys.foldl max y ∈ y :: ys
    exact foldl_max_mem ys y

theorem chooseFrom_mem (l : List ℕ) (raw : ℕ) (hl : l ≠ []) : chooseFrom l raw ∈ l := by
  unfold chooseFrom
  have hlen : 0 < l.length := List.length_pos.mpr hl
  have hm : raw % l.length < l.length := Nat.mod_lt _ hlen
  rw [List.getD_eq_getElem l 0 hm]
  exact List.getElem_mem hm

theorem mem_whereEq (k : ℕ) (f : ℕ → ℝ) (m : ℝ) (a : ℕ) :
    a ∈ whereEq k f m ↔ a < k ∧ f a = m := by
  simp [whereEq, List.mem_filter, List.mem_range]

theorem ucbGap_pos : 0 < ucbGap := by
  unfold ucbGap
  rw [sub_pos]
  apply Real.sqrt_lt_sqrt
  · exact div_nonneg (Real.log_nonneg one_le_two) (by norm_num)
  · exact div_lt_div_of_pos_left (Real.log_pos (by norm_num)) (by norm_num) (by norm_num)

theorem ucbGap_le (L : ℝ) (hL : Real.log 2 ≤ L) :
    ucbGap ≤ Real.sqrt (L / (1 / 100000)) - Real.sqrt (L / (1 + 1 / 100000)) := by
  have h2 : (0 : ℝ) ≤ Real.log 2 := Real.log_nonneg one_le_two
  have hL0 : (0 : ℝ) ≤ L := le_trans h2 hL
  unfold ucbGap
  rw [Real.sqrt_div h2, Real.sqrt_div h2, Real.sqrt_div hL0, Real.sqrt_div hL0]
  have hsA : 0 < Real.sqrt (1 / 100000) := Real.sqrt_pos.mpr (by norm_num)
  have hfac : 0 ≤ 1 / Real.sqrt (1 / 100000) - 1 / Real.sqrt (1 + 1 / 100000) := by
    rw [sub_nonneg]
    apply one_div_le_one_div_of_le hsA
    exact Real.sqrt_le_sqrt (by norm_num)
  have hsq : Real.sqrt (Real.log 2) ≤ Real.sqrt L := Real.sqrt_le_sqrt hL
  calc Real.sqrt (Real.log 2) / Real.sqrt (1 / 100000)
        - Real.sqrt (Real.log 2) / Real.sqrt (1 + 1 / 100000)
      = Real.sqrt (Real.log 2)
          * (1 / Real.sqrt (1 / 100000) - 1 / Real.sqrt (1 + 1 / 100000)) := by ring
    _ ≤ Real.sqrt L * (1 / Real.sqrt (1 / 100000) - 1 / Real.sqrt (1 + 1 / 100000)) :=
        mul_le_mul_of_nonneg_right hsq hfac
    _ = Real.sqrt L / Real.sqrt (1 / 100000) - Real.sqrt L / Real.sqrt (1 + 1 / 100000) := by
        ring

/-- C2 counterexample: with k = 2, c = 1, initial estimate 0, all tie-break
raw indices 0 and every observed reward 10^6, a fresh UCB run selects arm 0 at
BOTH of its first 2 steps: after k = 2 steps arm 0 has selection count 2 and
arm 1 count 0, so the first k steps do not visit each arm exactly once.  The
zero-selection score `c * sqrt(log 2 / 1e-5)` is large (about 263) but finite,
and the estimate 10^6 earned by arm 0's first reward overcomes it. -/
theorem ucb_repeat_within_first_k_cx :
    (ucbTrace 2 1 0 (fun _ => 0) (fun _ => 1000000) 2).sel 0 = 2
    ∧ (ucbTrace 2 1 0 (fun _ => 0) (fun _ => 1000000) 2).sel 1 = 0 := by
  have hr2 : List.range 2 = [0, 1] := rfl
  have h1q0 : (ucbTrace 2 1 0 (fun _ => 0) (fun _ => 1000000) 1).q 0 = 1000000 := by
    norm_num [ucbTrace, ucbUpdate, ucbAct, ucbScore, Strat.reset, whereEq, maxList,
      chooseFrom, drawChoice, hr2, List.filter, Real.log_one, Real.sqrt_zero]
  have h1q1 : (ucbTrace 2 1 0 (fun _ => 0) (fun _ => 1000000) 1).q 1 = 0 := by
    norm_num [ucbTrace, ucbUpdate, ucbAct, ucbScore, Strat.reset, whereEq, maxList,
      chooseFrom, drawChoice, hr2, List.filter, Real.log_one, Real.sqrt_zero]
  have h1s0 : (ucbTrace 2 1 0 (fun _ => 0) (fun _ => 1000000) 1).sel 0 = 1 := by
    norm_num [ucbTrace, ucbUpdate, ucbAct, ucbScore, Strat.reset, whereEq, maxList,
      chooseFrom, drawChoice, hr2, List.filter, Real.log_one, Real.sqrt_zero]
  have h1s1 : (ucbTrace 2 1 0 (fun _ => 0) (fun _ => 1000000) 1).sel 1 = 0 := by
    norm_num [ucbTrace, ucbUpdate, ucbAct, ucbScore, Strat.reset, whereEq, maxList,
      chooseFrom, drawChoice, hr2, List.filter, Real.log_one, Real.sqrt_zero]
  have h1t : (ucbTrace 2 1 0 (fun _ => 0) (fun _ => 1000000) 1).t = 1 := by
    norm_num [ucbTrace, ucbUpdate, ucbAct, Strat.reset]
  have hsc0 : ucbScore 1 (ucbTrace 2 1 0 (fun _ => 0) (fun _ => 1000000) 1) 0
      = 1000000 + Real.sqrt (Real.log 2 / (1 + 1 / 100000)) := by
    simp [ucbScore, h1q0, h1s0, h1t]
    norm_num
  have hsc1 : ucbScore 1 (ucbTrace 2 1 0 (fun _ => 0) (fun _ => 1000000) 1) 1
      = Real.sqrt (Real.log 2 / (1 / 100000)) := by
    simp [ucbScore, h1q1, h1s1, h1t]
    norm_num
  have hlog2 : Real.log 2 < 1 := by
    have := Real.log_two_lt_d9
    linarith
  have hsqA : Real.sqrt (Real.log 2 / (1 / 100000)) < 1000000 := by
    rw [Real.sqrt_lt' (by norm_num : (0 : ℝ) < 1000000)]
    rw [div_lt_iff (by norm_num : (0 : ℝ) < 1 / 100000)]
    nlinarith
  have hlt : ucbScore 1 (ucbTrace 2 1 0 (fun _ => 0) (fun _ => 1000000) 1) 1
      < ucbScore 1 (ucbTrace 2 1 0 (fun _ => 0) (fun _ => 1000000) 1) 0 := by
    rw [hsc0, hsc1]
    have := Real.sqrt_nonneg (Real.log 2 / (1 + 1 / 100000))
    linarith
  have hmax : maxList ((List.range 2).map
        (ucbScore 1 (ucbTrace 2 1 0 (fun _ => 0) (fun _ => 1000000) 1)))
      = ucbScore 1 (ucbTrace 2 1 0 (fun _ => 0) (fun _ => 1000000) 1) 0 := by
    rw [hr2]
    simp [maxList]
    exact hlt.le
  have hwhere : whereEq 2 (ucbScore 1 (ucbTrace 2 1 0 (fun _ => 0) (fun _ => 1000000) 1))
        (ucbScore 1 (ucbTrace 2 1 0 (fun _ => 0) (fun _ => 1000000) 1) 0) = [0] := by
    simp [whereEq, hr2, List.filter, hlt.ne]
  have ha1 : (ucbAct 2 1 (ucbTrace 2 1 0 (fun _ => 0) (fun _ => 1000000) 1)
      { randn := fun _ => 0, rand := fun _ => 0, choice := fun _ => 0 }
      { rn := 0, rd := 0, ch := 1 }).1 = 0 := by
    simp only [ucbAct, hmax, hwhere]
    norm_num [drawChoice, chooseFrom]
  have hstep : ucbTrace 2 1 0 (fun _ => 0) (fun _ => 1000000) 2
      = ucbUpdate (ucbTrace 2 1 0 (fun _ => 0) (fun _ => 1000000) 1)
          ((ucbAct 2 1 (ucbTrace 2 1 0 (fun _ => 0) (fun _ => 1000000) 1)
            { randn := fun _ => 0, rand := fun _ => 0, choice := fun _ => 0 }
            { rn := 0, rd := 0, ch := 1 }).1) 1000000 := rfl
  constructor
  · rw [hstep, ha1]
    norm_num [ucbUpdate, h1s0]
  · rw [hstep, ha1]
    norm_num [ucbUpdate, h1s1]

/-- C2 amended: in `UCB.act` an arm with zero selections has the FINITE score
`q[a] + c * sqrt(log(t + 1) / 1e-5)` (the added 1e-5 makes it large, not
infinite), and during the first k steps of a fresh (reset) UCB run every one
of the k arms is selected exactly once before any arm is selected a second
time PROVIDED every reward observed in those steps deviates from the initial
estimate by less than `c * (sqrt(log 2 / 1e-5) - sqrt(log 2 / (1 + 1e-5)))`
(without such a bound the property fails, see the counterexample). -/
theorem ucb_first_k_each_once (k : ℕ) (cc initial : ℝ) (chi : ℕ → ℕ) (rew : ℕ → ℝ)
    (hrew : ∀ t, t < k → |rew t - initial| < cc * ucbGap) :
    (∀ t, t ≤ k → ∀ a, (ucbTrace k cc initial chi rew t).sel a ≤ 1)
    ∧ (∀ a, a < k → (ucbTrace k cc initial chi rew k).sel a = 1)
    ∧ ∀ (s : SState) (a : ℕ), s.sel a = 0 →
        ucbScore cc s a
          = s.q a + cc * Real.sqrt (Real.log ((s.t : ℝ) + 1) / (1 / 100000)) := by
  have hscore0 : ∀ (s : SState) (a : ℕ), s.sel a = 0 →
      ucbScore cc s a
        = s.q a + cc * Real.sqrt (Real.log ((s.t : ℝ) + 1) / (1 / 100000)) := by
    intro s a ha
    simp [ucbScore, ha]
  have main : ∀ t, t ≤ k →
      (ucbTrace k cc initial chi rew t).t = t
      ∧ (∀ a, (ucbTrace k cc initial chi rew t).sel a = 0
          ∨ (ucbTrace k cc initial chi rew t).sel a = 1)
      ∧ (∀ a, k ≤ a → (ucbTrace k cc initial chi rew t).sel a = 0)
      ∧ (∑ a ∈ Finset.range k, (ucbTrace k cc initial chi rew t).sel a) = (t : ℝ)
      ∧ (∀ a, (ucbTrace k cc initial chi rew t).sel a = 1 →
          |(ucbTrace k cc initial chi rew t).q a - initial| < cc * ucbGap)
      ∧ (∀ a, (ucbTrace k cc initial chi rew t).sel a = 0 →
          (ucbTrace k cc initial chi rew t).q a = initial) := by
    intro t
    induction t with
    | zero =>
      intro _
      refine ⟨rfl, fun a => Or.inl rfl, fun a _ => rfl,
        by simp [ucbTrace, Strat.reset], ?_, fun a _ => rfl⟩
      intro a ha
      have : (0 : ℝ) = 1 := ha
      norm_num at this
    | succ m ih =>
      intro hm1
      have hmk : m < k := hm1
      obtain ⟨iht, ih01, ihout, ihsum, ihq1, ihq0⟩ := ih (le_of_lt hmk)
      set s : SState := ucbTrace k cc initial chi rew m with hs
      set om : Oracle := { randn := fun _ => 0, rand := fun _ => 0, choice := chi } with hom
      set a0 : ℕ := (ucbAct k cc s om { rn := 0, rd := 0, ch := m }).1 with ha0def
      have hstep : ucbTrace k cc initial chi rew (m + 1) = ucbUpdate s a0 (rew m) := rfl
      have hk0 : 0 < k := lt_of_le_of_lt (Nat.zero_le m) hmk
      have hccgap : 0 < cc * ucbGap := lt_of_le_of_lt (abs_nonneg _) (hrew 0 hk0)
      have hcc : 0 < cc := by
        rcases mul_pos_iff.mp hccgap with ⟨h, _⟩ | ⟨_, hneg⟩
        · exact h
        · exact absurd hneg (not_lt.mpr ucbGap_pos.le)
      have hmapne : ((List.range k).map (ucbScore cc s)) ≠ [] := by
        simp [List.range_eq_nil, hk0.ne']
      have hwne : whereEq k (ucbScore cc s)
          (maxList ((List.range k).map (ucbScore cc s))) ≠ [] := by
        obtain ⟨i, hi, hfi⟩ := List.mem_map.mp (maxList_mem _ hmapne)
        intro hnil
        have hmem : i ∈ whereEq k (ucbScore cc s)
            (maxList ((List.range k).map (ucbScore cc s))) :=
          (mem_whereEq k _ _ i).mpr ⟨List.mem_range.mp hi, hfi⟩
        rw [hnil] at hmem
        cases hmem
      have ha0mem : a0 ∈ whereEq k (ucbScore cc s)
          (maxList ((List.range k).map (ucbScore cc s))) := by
        rw [ha0def]
        exact chooseFrom_mem _ _ hwne
      obtain ⟨ha0k, ha0max⟩ := (mem_whereEq k _ _ a0).mp ha0mem
      have hex : ∃ u, u < k ∧ s.sel u = 0 := by
        by_contra hno
        push_neg at hno
        have hall : ∀ u ∈ Finset.range k, s.sel u = 1 := by
          intro u hu
          rcases ih01 u with h | h
          · exact absurd h (hno u (Finset.mem_range.mp hu))
          · exact h
        have hk : (∑ a ∈ Finset.range k, s.sel a) = (k : ℝ) := by
          rw [Finset.sum_congr rfl hall]
          simp
        rw [ihsum] at hk
        have hcast : (m : ℝ) < (k : ℝ) := by exact_mod_cast hmk
        linarith
      obtain ⟨u, huk, hu0⟩ := hex
      have hunsel_score : ucbScore cc s u
          = initial + cc * Real.sqrt (Real.log ((m : ℝ) + 1) / (1 / 100000)) := by
        rw [hscore0 s u hu0, ihq0 u hu0, iht]
      have ha0sel : s.sel a0 = 0 := by
        rcases ih01 a0 with h | h
        · exact h
        · exfalso
          have ha0k' : a0 ∈ Finset.range k := Finset.mem_range.mpr ha0k
          have hsel_nonneg : ∀ i ∈ Finset.range k, (0 : ℝ) ≤ s.sel i := by
            intro i _
            rcases ih01 i with h' | h' <;> simp [h']
          have h1m : (1 : ℝ) ≤ (m : ℝ) := by
            have hle := Finset.single_le_sum hsel_nonneg ha0k'
            rw [ihsum, h] at hle
            exact hle
          have hm2 : (2 : ℝ) ≤ (m : ℝ) + 1 := by linarith
          have hlogle : Real.log 2 ≤ Real.log ((m : ℝ) + 1) :=
            Real.log_le_log (by norm_num) hm2
          have hscoresel : ucbScore cc s a0
              = s.q a0 + cc * Real.sqrt (Real.log ((m : ℝ) + 1) / (1 + 1 / 100000)) := by
            simp [ucbScore, h, iht]
          have hqlt : s.q a0 - initial < cc * ucbGap := (abs_lt.mp (ihq1 a0 h)).2
          have hgap' : cc * ucbGap
              ≤ cc * (Real.sqrt (Real.log ((m : ℝ) + 1) / (1 / 100000))
                - Real.sqrt (Real.log ((m : ℝ) + 1) / (1 + 1 / 100000))) :=
            mul_le_mul_of_nonneg_left (ucbGap_le _ hlogle) hcc.le
          have hdistrib : cc * (Real.sqrt (Real.log ((m : ℝ) + 1) / (1 / 100000))
                - Real.sqrt (Real.log ((m : ℝ) + 1) / (1 + 1 / 100000)))
              = cc * Real.sqrt (Real.log ((m : ℝ) + 1) / (1 / 100000))
                - cc * Real.sqrt (Real.log ((m : ℝ) + 1) / (1 + 1 / 100000)) := by ring
          have hlt : ucbScore cc s a0 < ucbScore cc s u := by
            rw [hscoresel, hunsel_score]
            rw [hdistrib] at hgap'
            linarith
          have hle : ucbScore cc s u
              ≤ maxList ((List.range k).map (ucbScore cc s)) :=
            le_maxList _ _ (List.mem_map_of_mem _ (List.mem_range.mpr huk))
          rw [← ha0max] at hle
          linarith
      have hselupd : ∀ i, (ucbUpdate s a0 (rew m)).sel i
          = if i = a0 then s.sel i + 1 else s.sel i := fun i => rfl
      have hqupd : ∀ i, (ucbUpdate s a0 (rew m)).q i
          = if i = a0 then s.q i + (rew m - s.q i) / (s.sel i + 1) else s.q i := by
        intro i
        by_cases hi : i = a0 <;> simp [ucbUpdate, hi]
      have httupd : (ucbUpdate s a0 (rew m)).t = s.t + 1 := rfl
      rw [hstep]
      refine ⟨?_, ?_, ?_, ?_, ?_, ?_⟩
      · rw [httupd, iht]
      · intro a
        rw [hselupd]
        by_cases hi : a = a0
        · rw [if_pos hi, hi, ha0sel]
          right
          norm_num
        · rw [if_neg hi]
          exact ih01 a
      · intro a hka
        have hne : a ≠ a0 := by omega
        rw [hselupd, if_neg hne]
        exact ihout a hka
      · have hcongr : ∀ i ∈ Finset.range k, (ucbUpdate s a0 (rew m)).sel i
            = s.sel i + (if i = a0 then (1 : ℝ) else 0) := by
          intro i _
          rw [hselupd]
          by_cases hi : i = a0 <;> simp [hi]
        rw [Finset.sum_congr rfl hcongr, Finset.sum_add_distrib, ihsum,
          Finset.sum_ite_eq' (Finset.range k) a0 fun _ => (1 : ℝ)]
        rw [if_pos (Finset.mem_range.mpr ha0k)]
        push_cast
        ring
      · intro a ha1
        rw [hqupd]
        by_cases hi : a = a0
        · rw [if_pos hi, hi, ihq0 a0 ha0sel, ha0sel]
          have heq : initial + (rew m - initial) / (0 + 1) = rew m := by ring
          rw [heq]
          exact hrew m hmk
        · rw [if_neg hi]
          apply ihq1
          rw [hselupd, if_neg hi] at ha1
          exact ha1
      · intro a ha0'
        have hia : a ≠ a0 := by
          intro he
          rw [hselupd, if_pos he, he, ha0sel] at ha0'
          norm_num at ha0'
        rw [hqupd, if_neg hia]
        apply ihq0
        rw [hselupd, if_neg hia] at ha0'
        exact ha0'
  refine ⟨?_, ?_, hscore0⟩
  · intro t ht a
    rcases (main t ht).2.1 a with h | h <;> simp [h]
  · intro a hak
    obtain ⟨-, h01, -, hsum, -, -⟩ := main k le_rfl
    rcases h01 a with h | h
    · exfalso
      have hle : ∀ i ∈ Finset.range k, (ucbTrace k cc initial chi rew k).sel i ≤ 1 := by
        intro i _
        rcases h01 i with h' | h' <;> simp [h']
      have hlt := Finset.sum_lt_sum hle
        ⟨a, Finset.mem_range.mpr hak, by rw [h]; norm_num⟩
      rw [hsum] at hlt
      simp at hlt
    · exact h

/-- Witness for the amended C2 statement at k = 1, c = 1, initial 0, all
rewards 0. -/
theorem ucb_first_k_each_once_witness :
    (∀ t, t ≤ 1 → ∀ a, (ucbTrace 1 1 0 (fun _ => 0) (fun _ => 0) t).sel a ≤ 1)
    ∧ (∀ a, a < 1 → (ucbTrace 1 1 0 (fun _ => 0) (fun _ => 0) 1).sel a = 1)
    ∧ ∀ (s : SState) (a : ℕ), s.sel a = 0 →
        ucbScore 1 s a
          = s.q a + 1 * Real.sqrt (Real.log ((s.t : ℝ) + 1) / (1 / 100000)) :=
  ucb_first_k_each_once 1 1 0 (fun _ => 0) (fun _ => 0)
    (fun t _ => by simpa using mul_pos one_pos ucbGap_pos)

end KB
